import Mathlib

/-!
Verification of the link-normalization core of `archive.py` (Bookmark Archiver).

The development shallowly embeds the functions of the source file that the
normalization pipeline uses:

* `get_link_type`        (archive.py, lines 72-83)
* `next_uniq_timestamp`  (archive.py, lines 282-300)
* `uniquefied_links`     (archive.py, lines 302-323)
* `valid_links`          (archive.py, lines 325-327)
* the composition `valid_links` then `uniquefied_links` as wired in
  `create_archive` (archive.py, lines 464-465).

Python strings are modelled as Lean `String`s; Python string comparison is
code-point lexicographic, modelled on the `List Char` data of a `String`.
Python exceptions (`ValueError` from tuple unpacking and from `int()`) are
modelled with `Except String`.  Python's unbounded `while` search for a free
nonce is modelled with explicit fuel `used.length + 1`, which is proved
sufficient (pigeonhole), so the model is extensionally the Python loop.
-/
/-- Link record: the dict assembled by the parsers in archive.py (lines
95-104, 115-124, 139-149): fields url, domain, base_url, time, timestamp,
tags, title, type. -/
structure Link where
  url : String
  domain : String
  base_url : String
  time : String
  timestamp : String
  tags : String
  title : String
  type : Option String
deriving DecidableEq

/-- Replace only the timestamp field (models `link['timestamp'] = ...`,
archive.py line 320). -/
def setTs (l : Link) (t : String) : Link :=
  { l with timestamp := t }

/-- All fields of a link except its timestamp. -/
def stripTs (l : Link) : String × String × String × String × String × String × Option String :=
  (l.url, l.domain, l.base_url, l.time, l.tags, l.title, l.type)

/-! ### Python string comparison (code-point lexicographic) -/
/-- Lexicographic strict order on character lists, as Python compares
strings: first differing code point decides, a proper prefix is smaller. -/
def listLt : List Char → List Char → Bool
  | _, [] => false
  | [], _ :: _ => true
  | a :: as, b :: bs => decide (a < b) || (decide (a = b) && listLt as bs)

/-- Python `a < b` on strings. -/
def strLt (a b : String) : Bool :=
  listLt a.data b.data

/-- Python `a <= b` on strings. -/
def strLe (a b : String) : Bool :=
  strLt a b || a == b

/-! ### The sort of `uniquefied_links` (archive.py line 309)

Python sorts ascending by the tuple key `(l['timestamp'], l['url'])` with a
stable sort and then reverses the list.  `insertLink`/`isort` is a stable
ascending insertion sort by the same key, so it computes the same list as
CPython's stable `sorted`. -/
/-- Boolean `key a <= key b` for the sort key `(timestamp, url)`,
Python tuple comparison. -/
def keyLe (a b : Link) : Bool :=
  strLt a.timestamp b.timestamp || (a.timestamp == b.timestamp && strLe a.url b.url)

/-- Stable insertion into an ascending list: the new element goes before the
first element it is `keyLe`-below-or-equal. -/
def insertLink (x : Link) : List Link → List Link
  | [] => [x]
  | y :: ys => if keyLe x y then x :: y :: ys else y :: insertLink x ys

/-- Stable ascending insertion sort by `(timestamp, url)`. -/
def isort : List Link → List Link
  | [] => []
  | x :: xs => insertLink x (isort xs)

/-- Model of `list(reversed(sorted(links, key=lambda l: (l['timestamp'],
l['url']))))`, archive.py line 309. -/
def pySortDesc (links : List Link) : List Link :=
  (isort links).reverse

/-! ### Decimal rendering of the nonce (Python `str(nonce)` inside
`'{}.{}'.format(timestamp, nonce)`, archive.py lines 294 and 298) -/
/-- Big-endian decimal digits of a positive number; fuel-based so that it
reduces definitionally.  `natToStrAux (n+1) n` is exact for every `n`. -/
def natToStrAux : Nat → Nat → List Char
  | 0, _ => []
  | fuel + 1, n => if n = 0 then [] else natToStrAux fuel (n / 10) ++ [Nat.digitChar (n % 10)]

/-- Decimal rendering of a natural number, as Python `str`. -/
def natToStr (n : Nat) : String :=
  if n = 0 then "0" else String.mk (natToStrAux (n + 1) n)

/-- Candidate timestamp `'{}.{}'.format(base, nonce)`. -/
def mkCand (base : String) (n : Nat) : String :=
  base ++ "." ++ natToStr n

/-- Decode a big-endian digit string back to a number. -/
def decodeChars (cs : List Char) : Nat :=
  cs.foldl (fun acc c => 10 * acc + (c.toNat - 48)) 0

/-! ### The nonce search loop (archive.py lines 296-298)

`while new_timestamp in used_timestamps: nonce += 1; ...` — an unbounded
search upward from the starting nonce.  `searchFrom` runs it with fuel;
`searchFrom_exists_free` shows fuel `used.length + 1` always finds a free
candidate, so with that fuel the model equals the Python loop. -/
/-- Fuelled upward search for the first nonce `>= n` whose candidate is not
in `used`. -/
def searchFrom (used : List String) (base : String) : Nat → Nat → String
  | 0, n => mkCand base n
  | fuel + 1, n =>
    if used.contains (mkCand base n) then searchFrom used base fuel (n + 1)
    else mkCand base n

/-! ### `next_uniq_timestamp` (archive.py lines 282-300)

Python's `timestamp.split('.')` splits on EVERY dot; the tuple unpacking
`timestamp, nonce = ...` raises `ValueError` unless there are exactly two
parts, and `int(nonce)` raises `ValueError` unless the part after the dot is
numeric.  Exceptions are modelled as `Except.error`. -/
/-- Split a character list at every occurrence of `sep`, Python
`str.split(sep)`. -/
def splitChars (sep : Char) : List Char → List (List Char)
  | [] => [[]]
  | c :: cs =>
    if c = sep then [] :: splitChars sep cs
    else
      match splitChars sep cs with
      | [] => [[c]]
      | p :: ps => (c :: p) :: ps

/-- Python `s.split(sep)` for a single-character separator. -/
def pySplit (s : String) (sep : Char) : List String :=
  (splitChars sep s.data).map List.asString

/-- Python `int(s)` on the strings that occur here: succeeds exactly on
nonempty all-digit strings, its value is the decimal reading.  (Python's
`int` also strips sign and whitespace; no caller in archive.py produces
such a nonce string, so that corner is outside the model.) -/
def pyParseNat (s : String) : Option Nat :=
  if !s.data.isEmpty && s.data.all (fun c => c.isDigit) then some (decodeChars s.data)
  else none

/-- Model of `next_uniq_timestamp(used_timestamps, timestamp)`, archive.py
lines 282-300.  `used_timestamps` is the list of keys of the Python dict;
the unbounded `while` loop is `searchFrom` with provably sufficient fuel. -/
def next_uniq_timestamp (used_timestamps : List String) (timestamp : String) :
    Except String String :=
  if used_timestamps.contains timestamp then
    if timestamp.data.contains '.' then
      match pySplit timestamp '.' with
      | [base, nonceStr] =>
        match pyParseNat nonceStr with
        | some nonce =>
          Except.ok (searchFrom used_timestamps base (used_timestamps.length + 1) nonce)
        | none => Except.error "ValueError: invalid literal for int() with base 10"
      | _ => Except.error "ValueError: too many values to unpack"
    else
      Except.ok (searchFrom used_timestamps timestamp (used_timestamps.length + 1) 1)
  else
    Except.ok timestamp

/-! ### `uniquefied_links` (archive.py lines 302-323) and
`valid_links` (lines 325-327)

The Python loop walks the sorted list, keeps a dict `seen_timestamps`
mapping claimed timestamp to the claiming link, and mutates only the
`timestamp` field of colliding links.  A link whose timestamp is held by a
link with the same url is skipped with `continue` — which leaves it in the
returned list `links`, it only refrains from claiming a slot.  The walk is
modelled functionally; the dict is an association list with fresh keys
consed on (key membership and lookup are all the walk uses, so insertion
order is irrelevant). -/
/-- Dict lookup `seen_timestamps[t]` / membership `t in seen_timestamps`. -/
def dictFind (seen : List (String × Link)) (t : String) : Option Link :=
  match seen.find? (fun p => p.1 == t) with
  | some p => some p.2
  | none => none

/-- One pass of the loop of `uniquefied_links` (archive.py lines 312-321),
returning the processed links and the final dict. -/
def dedupLoopAux :
    List (String × Link) → List Link → Except String (List Link × List (String × Link))
  | seen, [] => Except.ok ([], seen)
  | seen, link :: rest =>
    match dictFind seen link.timestamp with
    | some holder =>
      if link.url == holder.url then
        match dedupLoopAux seen rest with
        | Except.ok (out, fin) => Except.ok (link :: out, fin)
        | Except.error e => Except.error e
      else
        match next_uniq_timestamp (seen.map Prod.fst) link.timestamp with
        | Except.ok newTs =>
          match dedupLoopAux ((newTs, setTs link newTs) :: seen) rest with
          | Except.ok (out, fin) => Except.ok (setTs link newTs :: out, fin)
          | Except.error e => Except.error e
        | Except.error e => Except.error e
    | none =>
      match dedupLoopAux ((link.timestamp, link) :: seen) rest with
      | Except.ok (out, fin) => Except.ok (link :: out, fin)
      | Except.error e => Except.error e

/-- Model of `uniquefied_links(links)`, archive.py lines 302-323: sort
descending by `(timestamp, url)`, then run the uniqueification loop and
return the processed list. -/
def uniquefied_links (links : List Link) : Except String (List Link) :=
  match dedupLoopAux [] (pySortDesc links) with
  | Except.ok (out, _) => Except.ok out
  | Except.error e => Except.error e

/-- Python `s.startswith(pre)`. -/
def pyStartsWith (s pre : String) : Bool :=
  pre.data.isPrefixOf s.data

/-- The scheme filter predicate of `valid_links` (archive.py line 327). -/
def schemeOk (link : Link) : Bool :=
  pyStartsWith link.url "http" || pyStartsWith link.url "ftp"

/-- Model of `valid_links(links)`, archive.py lines 325-327. -/
def valid_links (links : List Link) : List Link :=
  links.filter schemeOk

/-- The normalization pipeline as wired in `create_archive`, archive.py
lines 464-465: `links = valid_links(links); links = uniquefied_links(links)`. -/
def normalizePipeline (links : List Link) : Except String (List Link) :=
  uniquefied_links (valid_links links)

/-! ### `get_link_type` (archive.py lines 72-83)

The image branch compares the LIST returned by `base_url.rsplit('.', 1)`
against a tuple of plain strings with Python `in`, i.e. `==` between a list
and each string.  Python `==` across those types is always `False`; the
value universe `PyVal` with structural `pyEq` models that comparison
faithfully rather than asserting it. -/
/-- Python values that occur in the image-extension check: strings and lists
of values. -/
inductive PyVal where
  | str : String → PyVal
  | list : List PyVal → PyVal

/-- Python `==` on such values: strings compare by content, lists compare
elementwise, and values of different types are never equal. -/
def pyEq : PyVal → PyVal → Bool
  | PyVal.str a, PyVal.str b => a == b
  | PyVal.list [], PyVal.list [] => true
  | PyVal.list (a :: as), PyVal.list (b :: bs) => pyEq a b && pyEq (PyVal.list as) (PyVal.list bs)
  | _, _ => false

/-- Python `s.rsplit(sep, 1)`: split once at the LAST separator; the whole
string if the separator does not occur. -/
def rsplitOnce (sep : Char) (s : String) : List String :=
  if s.data.contains sep then
    [List.asString ((s.data.reverse.dropWhile (fun c => !(c == sep))).drop 1).reverse,
     List.asString (s.data.reverse.takeWhile (fun c => !(c == sep))).reverse]
  else [s]

/-- Python `s.endswith(suf)`. -/
def pyEndsWith (s suf : String) : Bool :=
  suf.data.isSuffixOf s.data

/-- Python `needle in haystack` on strings (substring test). -/
def pyInStr (needle haystack : String) : Bool :=
  (List.range (haystack.data.length + 1)).any
    (fun i => needle.data.isPrefixOf (haystack.data.drop i))

/-- The tuple `('pdf', 'png', 'jpg', 'jpeg', 'svg', 'bmp', 'gif', 'tiff',
'webp')` of archive.py line 77. -/
def imageExts : List String :=
  ["pdf", "png", "jpg", "jpeg", "svg", "bmp", "gif", "tiff", "webp"]

/-- Model of `get_link_type(link)`, archive.py lines 72-83. -/
def get_link_type (link : Link) : Option String :=
  if pyEndsWith link.base_url ".pdf" then some "PDF"
  else if imageExts.any
      (fun e => pyEq (PyVal.list ((rsplitOnce '.' link.base_url).map PyVal.str)) (PyVal.str e)) then
    some "image"
  else if pyInStr "wikipedia.org" link.domain then some "wiki"
  else if pyInStr "youtube.com" link.domain then some "youtube"
  else none

/-! ### Concrete links used by counterexamples and witnesses -/
/-- A valid link with timestamp 1000, duplicated in the C1 counterexample. -/
def dupLink : Link :=
  { url := "http://dup.example/x", domain := "dup.example", base_url := "dup.example/x",
    time := "", timestamp := "1000", tags := "", title := "dup", type := none }

/-- A valid link with timestamp 2000 and url u2, for the C2 counterexample. -/
def dupLink2 : Link :=
  { url := "http://two.example/y", domain := "two.example", base_url := "two.example/y",
    time := "", timestamp := "2000", tags := "", title := "two", type := none }

/-- Valid link, url smaller than `colB.url`, timestamp 1000. -/
def colA : Link :=
  { url := "http://a.example/", domain := "a.example", base_url := "a.example/",
    time := "", timestamp := "1000", tags := "", title := "a", type := none }

/-- Valid link, url larger than `colA.url`, timestamp 1000. -/
def colB : Link :=
  { url := "http://b.example/", domain := "b.example", base_url := "b.example/",
    time := "", timestamp := "1000", tags := "", title := "b", type := none }

/-- Valid link, url larger than `colA.url` and `colB.url`, timestamp 1000. -/
def colC : Link :=
  { url := "http://c.example/", domain := "c.example", base_url := "c.example/",
    time := "", timestamp := "1000", tags := "", title := "c", type := none }

/-- A link with a scheme that `valid_links` drops. -/
def chromeLink : Link :=
  { url := "chrome://settings", domain := "settings", base_url := "chrome://settings",
    time := "", timestamp := "1000", tags := "", title := "settings", type := none }

theorem listLt_irrefl (as : List Char) : listLt as as = false := by
  induction as with
  | nil => rfl
  | cons a as ih => simp [listLt, ih, lt_irrefl]

theorem listLt_trans {as bs cs : List Char} (h1 : listLt as bs = true)
    (h2 : listLt bs cs = true) : listLt as cs = true := by
  induction as generalizing bs cs with
  | nil =>
    cases cs with
    | nil => cases bs <;> simp [listLt] at h1 h2
    | cons c cs => simp [listLt]
  | cons a as ih =>
    cases bs with
    | nil => simp [listLt] at h1
    | cons b bs =>
      cases cs with
      | nil => simp [listLt] at h2
      | cons c cs =>
        simp only [listLt, Bool.or_eq_true, Bool.and_eq_true, decide_eq_true_eq] at h1 h2 ⊢
        rcases h1 with hab | ⟨hab, h1'⟩
        · rcases h2 with hbc | ⟨hbc, h2'⟩
          · exact Or.inl (lt_trans hab hbc)
          · exact Or.inl (hbc ▸ hab)
        · rcases h2 with hbc | ⟨hbc, h2'⟩
          · exact Or.inl (hab ▸ hbc)
          · exact Or.inr ⟨hab.trans hbc, ih h1' h2'⟩

theorem listLt_tri (as bs : List Char) :
    as = bs ∨ listLt as bs = true ∨ listLt bs as = true := by
  induction as generalizing bs with
  | nil =>
    cases bs with
    | nil => exact Or.inl rfl
    | cons b bs => exact Or.inr (Or.inl (by simp [listLt]))
  | cons a as ih =>
    cases bs with
    | nil => exact Or.inr (Or.inr (by simp [listLt]))
    | cons b bs =>
      rcases lt_trichotomy a b with hab | hab | hab
      · exact Or.inr (Or.inl (by simp [listLt, hab]))
      · rcases ih bs with h | h | h
        · exact Or.inl (by rw [hab, h])
        · exact Or.inr (Or.inl (by simp [listLt, hab, h]))
        · exact Or.inr (Or.inr (by simp [listLt, hab.symm, h]))
      · exact Or.inr (Or.inr (by simp [listLt, hab]))

theorem strLt_irrefl (s : String) : strLt s s = false :=
  listLt_irrefl s.data

theorem strLt_trans {a b c : String} (h1 : strLt a b = true) (h2 : strLt b c = true) :
    strLt a c = true :=
  listLt_trans h1 h2

theorem strLt_tri (a b : String) : a = b ∨ strLt a b = true ∨ strLt b a = true := by
  rcases listLt_tri a.data b.data with h | h | h
  · left
    cases a; cases b; exact congrArg String.mk h
  · exact Or.inr (Or.inl h)
  · exact Or.inr (Or.inr h)

theorem strLe_refl (a : String) : strLe a a = true := by
  simp [strLe]

theorem strLe_total (a b : String) : strLe a b = true ∨ strLe b a = true := by
  rcases strLt_tri a b with h | h | h
  · left; simp [strLe, h]
  · left; simp [strLe, h]
  · right; simp [strLe, h]

theorem strLe_trans {a b c : String} (h1 : strLe a b = true) (h2 : strLe b c = true) :
    strLe a c = true := by
  simp only [strLe, Bool.or_eq_true, beq_iff_eq] at h1 h2 ⊢
  rcases h1 with h1 | rfl
  · rcases h2 with h2 | rfl
    · exact Or.inl (strLt_trans h1 h2)
    · exact Or.inl h1
  · exact h2

theorem strLt_of_strLe_of_ne {a b : String} (h : strLe a b = true) (hne : a ≠ b) :
    strLt a b = true := by
  simp only [strLe, Bool.or_eq_true, beq_iff_eq] at h
  tauto

theorem strLt_asymm {a b : String} (h : strLt a b = true) : strLt b a = false := by
  by_contra hc
  have hba : strLt b a = true := by
    cases hba : strLt b a
    · exact absurd hba hc
    · rfl
  have := strLt_trans h hba
  rw [strLt_irrefl] at this
  exact Bool.false_ne_true this

theorem keyLe_refl (a : Link) : keyLe a a = true := by
  simp [keyLe, strLe_refl]

theorem keyLe_total (a b : Link) : keyLe a b = true ∨ keyLe b a = true := by
  rcases strLt_tri a.timestamp b.timestamp with h | h | h
  · rcases strLe_total a.url b.url with hu | hu
    · left; simp [keyLe, h, hu]
    · right; simp [keyLe, h.symm, hu]
  · left; simp [keyLe, h]
  · right; simp [keyLe, h]

theorem keyLe_trans {a b c : Link} (h1 : keyLe a b = true) (h2 : keyLe b c = true) :
    keyLe a c = true := by
  simp only [keyLe, Bool.or_eq_true, Bool.and_eq_true, beq_iff_eq] at h1 h2 ⊢
  rcases h1 with h1 | ⟨h1, h1'⟩
  · rcases h2 with h2 | ⟨h2, h2'⟩
    · exact Or.inl (strLt_trans h1 h2)
    · exact Or.inl (h2 ▸ h1)
  · rcases h2 with h2 | ⟨h2, h2'⟩
    · exact Or.inl (h1 ▸ h2)
    · exact Or.inr ⟨h1.trans h2, strLe_trans h1' h2'⟩

theorem mem_insertLink {x z : Link} {l : List Link} :
    z ∈ insertLink x l ↔ z = x ∨ z ∈ l := by
  induction l with
  | nil => simp [insertLink]
  | cons y ys ih =>
    by_cases h : keyLe x y = true
    · simp [insertLink, h]
    · simp only [insertLink, h, if_neg, Bool.not_eq_true, List.mem_cons, ih]
      tauto

theorem insertLink_perm (x : Link) (l : List Link) :
    List.Perm (insertLink x l) (x :: l) := by
  induction l with
  | nil => simp [insertLink]
  | cons y ys ih =>
    by_cases h : keyLe x y = true
    · simp [insertLink, h]
    · simp only [insertLink, h, if_neg, Bool.not_eq_true]
      exact (ih.cons y).trans (List.Perm.swap x y ys)

theorem isort_perm (l : List Link) : List.Perm (isort l) l := by
  induction l with
  | nil => simp [isort]
  | cons x xs ih => exact (insertLink_perm x (isort xs)).trans (ih.cons x)

theorem pySortDesc_perm (l : List Link) : List.Perm (pySortDesc l) l :=
  (List.reverse_perm (isort l)).trans (isort_perm l)

theorem insertLink_pairwise {x : Link} {l : List Link}
    (h : l.Pairwise (fun a b => keyLe a b = true)) :
    (insertLink x l).Pairwise (fun a b => keyLe a b = true) := by
  induction l with
  | nil => simp [insertLink]
  | cons y ys ih =>
    rcases List.pairwise_cons.mp h with ⟨hy, hys⟩
    by_cases hxy : keyLe x y = true
    · rw [insertLink, if_pos hxy]
      refine List.pairwise_cons.mpr ⟨?_, h⟩
      intro z hz
      rcases List.mem_cons.mp hz with rfl | hz
      · exact hxy
      · exact keyLe_trans hxy (hy z hz)
    · rw [insertLink, if_neg hxy]
      refine List.pairwise_cons.mpr ⟨?_, ih hys⟩
      intro z hz
      rcases mem_insertLink.mp hz with rfl | hz
      · rcases keyLe_total z y with h' | h'
        · exact absurd h' hxy
        · exact h'
      · exact hy z hz

theorem isort_pairwise (l : List Link) :
    (isort l).Pairwise (fun a b => keyLe a b = true) := by
  induction l with
  | nil => simp [isort]
  | cons x xs ih => exact insertLink_pairwise ih

theorem pySortDesc_pairwise (l : List Link) :
    (pySortDesc l).Pairwise (fun a b => keyLe b a = true) := by
  have h := isort_pairwise l
  unfold pySortDesc
  rw [List.pairwise_reverse]
  exact h

theorem digitChar_decode : ∀ d, d < 10 → (Nat.digitChar d).toNat - 48 = d := by
  intro d hd
  interval_cases d <;> rfl

theorem decodeChars_append_digit (cs : List Char) (c : Char) :
    decodeChars (cs ++ [c]) = 10 * decodeChars cs + (c.toNat - 48) := by
  simp [decodeChars, List.foldl_append]

theorem natToStrAux_zero (fuel : Nat) : natToStrAux fuel 0 = [] := by
  cases fuel <;> rfl

theorem decode_natToStrAux : ∀ fuel n, n < fuel → n ≠ 0 →
    decodeChars (natToStrAux fuel n) = n := by
  intro fuel
  induction fuel with
  | zero => intro n h; omega
  | succ f ih =>
    intro n hn hne
    rw [natToStrAux, if_neg hne, decodeChars_append_digit,
      digitChar_decode (n % 10) (Nat.mod_lt n (by omega))]
    by_cases h10 : n / 10 = 0
    · rw [h10, natToStrAux_zero]
      have hz : decodeChars [] = 0 := rfl
      rw [hz]
      omega
    · have hlt : n / 10 < f := by
        have h66 : n / 10 < n := Nat.div_lt_self (Nat.pos_of_ne_zero hne) (by omega)
        omega
      rw [ih (n / 10) hlt h10]
      omega

theorem decodeChars_natToStr_data (n : Nat) : decodeChars (natToStr n).data = n := by
  by_cases h : n = 0
  · subst h; rfl
  · rw [natToStr, if_neg h]
    exact decode_natToStrAux (n + 1) n (by omega) h

theorem natToStr_inj {m n : Nat} (h : natToStr m = natToStr n) : m = n := by
  have := decodeChars_natToStr_data m
  rw [h, decodeChars_natToStr_data] at this
  omega

theorem string_data_append (a b : String) : (a ++ b).data = a.data ++ b.data := by
  cases a; cases b; rfl

theorem mkCand_inj {base : String} {m n : Nat} (h : mkCand base m = mkCand base n) :
    m = n := by
  unfold mkCand at h
  have hd : (base ++ "." ++ natToStr m).data = (base ++ "." ++ natToStr n).data := by
    rw [h]
  rw [string_data_append, string_data_append] at hd
  have hd' : (natToStr m).data = (natToStr n).data := List.append_cancel_left hd
  have : natToStr m = natToStr n := by
    have h1 := congrArg String.mk hd'
    simpa using h1
  exact natToStr_inj this

theorem searchFrom_spec (used : List String) (base : String) :
    ∀ fuel n, (∃ k, k < fuel ∧ ¬ mkCand base (n + k) ∈ used) →
    ∃ m, searchFrom used base fuel n = mkCand base m ∧ n ≤ m ∧
      ¬ mkCand base m ∈ used ∧ ∀ j, n ≤ j → j < m → mkCand base j ∈ used := by
  intro fuel
  induction fuel with
  | zero =>
    intro n h
    obtain ⟨k, hk, _⟩ := h
    omega
  | succ f ih =>
    intro n h
    by_cases hmem : mkCand base n ∈ used
    · rw [searchFrom, if_pos (List.elem_iff.mpr hmem)]
      obtain ⟨k, hk, hfree⟩ := h
      have hk0 : k ≠ 0 := by
        rintro rfl
        simp at hfree
        exact hfree hmem
      obtain ⟨m, hres, hle, hfree', hmin⟩ := ih (n + 1) ⟨k - 1, by omega, by
        have : n + 1 + (k - 1) = n + k := by omega
        rw [this]; exact hfree⟩
      refine ⟨m, hres, by omega, hfree', ?_⟩
      intro j hj1 hj2
      by_cases hj : j = n
      · subst hj; exact hmem
      · exact hmin j (by omega) hj2
    · rw [searchFrom, if_neg (by simpa using hmem)]
      exact ⟨n, rfl, le_refl n, hmem, fun j hj1 hj2 => by omega⟩

theorem searchFrom_exists_free (used : List String) (base : String) (n : Nat) :
    ∃ k, k < used.length + 1 ∧ ¬ mkCand base (n + k) ∈ used := by
  by_contra hall
  push_neg at hall
  set L : List String :=
    (List.range (used.length + 1)).map (fun k => mkCand base (n + k)) with hL
  have hnodup : L.Nodup := by
    refine List.Nodup.map ?_ (List.nodup_range _)
    intro i j hij
    have := mkCand_inj hij
    omega
  have hsub : ∀ x ∈ L, x ∈ used := by
    intro x hx
    rw [hL, List.mem_map] at hx
    obtain ⟨k, hk, rfl⟩ := hx
    exact hall k (List.mem_range.mp hk)
  have hcard : L.toFinset.card = used.length + 1 := by
    rw [List.toFinset_card_of_nodup hnodup, hL, List.length_map, List.length_range]
  have hle : L.toFinset.card ≤ used.toFinset.card := by
    apply Finset.card_le_card
    intro x hx
    rw [List.mem_toFinset] at hx ⊢
    exact hsub x hx
  have hul : used.toFinset.card ≤ used.length := List.toFinset_card_le used
  omega

theorem searchFrom_full (used : List String) (base : String) (n : Nat) :
    ∃ m, searchFrom used base (used.length + 1) n = mkCand base m ∧ n ≤ m ∧
      ¬ mkCand base m ∈ used ∧ ∀ j, n ≤ j → j < m → mkCand base j ∈ used :=
  searchFrom_spec used base (used.length + 1) n (searchFrom_exists_free used base n)

theorem splitChars_ne_nil (sep : Char) (cs : List Char) : splitChars sep cs ≠ [] := by
  cases cs with
  | nil => simp [splitChars]
  | cons c cs =>
    rw [splitChars]
    by_cases h : c = sep
    · simp [h]
    · rw [if_neg h]
      cases hs : splitChars sep cs <;> simp

theorem splitChars_multi_contains {sep : Char} {cs : List Char} {p q : List Char}
    {ps : List (List Char)} (h : splitChars sep cs = p :: q :: ps) :
    cs.contains sep = true := by
  induction cs generalizing p q ps with
  | nil => simp [splitChars] at h
  | cons c cs ih =>
    rw [splitChars] at h
    by_cases hc : c = sep
    · simp [List.contains_cons, hc]
    · rw [if_neg hc] at h
      cases hs : splitChars sep cs with
      | nil => exact absurd hs (splitChars_ne_nil sep cs)
      | cons p' ps' =>
        rw [hs] at h
        cases ps' with
        | nil => simp at h
        | cons q' ps'' =>
          have hsub := ih hs
          have hmem : sep ∈ cs := List.elem_iff.mp hsub
          simp [List.contains_cons, hmem]

theorem next_uniq_ok_not_mem {used : List String} {ts r : String}
    (h : next_uniq_timestamp used ts = Except.ok r) : ¬ r ∈ used := by
  unfold next_uniq_timestamp at h
  split at h
  · split at h
    · split at h
      · split at h
        · simp only [Except.ok.injEq] at h
          obtain ⟨m, hm, _, hfree, _⟩ := searchFrom_full used _ _
          rw [← h, hm]
          exact hfree
        · exact absurd h (by simp)
      · exact absurd h (by simp)
    · simp only [Except.ok.injEq] at h
      obtain ⟨m, hm, _, hfree, _⟩ := searchFrom_full used ts 1
      rw [← h, hm]
      exact hfree
  · simp only [Except.ok.injEq] at h
    rw [← h]
    intro hc
    rename_i hmem
    exact hmem (List.elem_iff.mpr hc)

/-! ### Invariants of the uniqueification walk -/
theorem dictFind_eq_none {seen : List (String × Link)} {t : String}
    (h : dictFind seen t = none) : ∀ p ∈ seen, p.1 ≠ t := by
  intro p hp
  unfold dictFind at h
  split at h
  · exact absurd h (by simp)
  · rename_i hfind
    have := List.find?_eq_none.mp hfind p hp
    simpa using this

theorem dictFind_eq_some {seen : List (String × Link)} {t : String} {holder : Link}
    (h : dictFind seen t = some holder) :
    ∃ p, p ∈ seen ∧ p.1 = t ∧ p.2 = holder := by
  unfold dictFind at h
  split at h
  · rename_i p hfind
    have hmem := List.mem_of_find?_eq_some hfind
    have hp := List.find?_some hfind
    simp only [Option.some.injEq] at h
    exact ⟨p, hmem, by simpa using hp, h⟩
  · exact absurd h (by simp)

theorem dedupLoopAux_frame : ∀ (l : List Link) (seen : List (String × Link))
    (out : List Link) (fin : List (String × Link)),
    dedupLoopAux seen l = Except.ok (out, fin) → out.map stripTs = l.map stripTs := by
  intro l
  induction l with
  | nil =>
    intro seen out fin h
    simp only [dedupLoopAux, Except.ok.injEq, Prod.mk.injEq] at h
    rw [← h.1]
  | cons link rest ih =>
    intro seen out fin h
    simp only [dedupLoopAux] at h
    split at h
    · split at h
      · split at h
        · rename_i out' fin' heq
          simp only [Except.ok.injEq, Prod.mk.injEq] at h
          rw [← h.1, List.map_cons, List.map_cons, ih seen out' fin' heq]
        · exact absurd h (by simp)
      · split at h
        · split at h
          · rename_i newTs heq2 out' fin' heq
            simp only [Except.ok.injEq, Prod.mk.injEq] at h
            rw [← h.1, List.map_cons, List.map_cons, ih _ out' fin' heq]
            rfl
          · exact absurd h (by simp)
        · exact absurd h (by simp)
    · split at h
      · rename_i out' fin' heq
        simp only [Except.ok.injEq, Prod.mk.injEq] at h
        rw [← h.1, List.map_cons, List.map_cons, ih _ out' fin' heq]
      · exact absurd h (by simp)

theorem dedupLoopAux_mono : ∀ (l : List Link) (seen : List (String × Link))
    (out : List Link) (fin : List (String × Link)),
    dedupLoopAux seen l = Except.ok (out, fin) → ∀ p ∈ seen, p ∈ fin := by
  intro l
  induction l with
  | nil =>
    intro seen out fin h
    simp only [dedupLoopAux, Except.ok.injEq, Prod.mk.injEq] at h
    rw [← h.2]
    exact fun p hp => hp
  | cons link rest ih =>
    intro seen out fin h
    simp only [dedupLoopAux] at h
    split at h
    · split at h
      · split at h
        · rename_i out' fin' heq
          simp only [Except.ok.injEq, Prod.mk.injEq] at h
          rw [← h.2]
          exact ih seen out' fin' heq
        · exact absurd h (by simp)
      · split at h
        · split at h
          · rename_i newTs heq2 out' fin' heq
            simp only [Except.ok.injEq, Prod.mk.injEq] at h
            rw [← h.2]
            intro p hp
            exact ih _ out' fin' heq p (List.mem_cons_of_mem _ hp)
          · exact absurd h (by simp)
        · exact absurd h (by simp)
    · split at h
      · rename_i out' fin' heq
        simp only [Except.ok.injEq, Prod.mk.injEq] at h
        rw [← h.2]
        intro p hp
        exact ih _ out' fin' heq p (List.mem_cons_of_mem _ hp)
      · exact absurd h (by simp)

theorem dedupLoopAux_keys_nodup : ∀ (l : List Link) (seen : List (String × Link))
    (out : List Link) (fin : List (String × Link)),
    (seen.map Prod.fst).Nodup → dedupLoopAux seen l = Except.ok (out, fin) →
    (fin.map Prod.fst).Nodup := by
  intro l
  induction l with
  | nil =>
    intro seen out fin hnd h
    simp only [dedupLoopAux, Except.ok.injEq, Prod.mk.injEq] at h
    rw [← h.2]
    exact hnd
  | cons link rest ih =>
    intro seen out fin hnd h
    simp only [dedupLoopAux] at h
    split at h
    · split at h
      · split at h
        · rename_i out' fin' heq
          simp only [Except.ok.injEq, Prod.mk.injEq] at h
          rw [← h.2]
          exact ih seen out' fin' hnd heq
        · exact absurd h (by simp)
      · split at h
        · rename_i newTs heq2
          split at h
          · rename_i out' fin' heq
            simp only [Except.ok.injEq, Prod.mk.injEq] at h
            rw [← h.2]
            refine ih _ out' fin' ?_ heq
            rw [List.map_cons]
            refine List.Nodup.cons ?_ hnd
            intro hmem
            exact next_uniq_ok_not_mem heq2 hmem
          · exact absurd h (by simp)
        · exact absurd h (by simp)
    · rename_i hnone
      split at h
      · rename_i out' fin' heq
        simp only [Except.ok.injEq, Prod.mk.injEq] at h
        rw [← h.2]
        refine ih _ out' fin' ?_ heq
        rw [List.map_cons]
        refine List.Nodup.cons ?_ hnd
        intro hmem
        rw [List.mem_map] at hmem
        obtain ⟨p, hp, hp1⟩ := hmem
        exact dictFind_eq_none hnone p hp hp1
      · exact absurd h (by simp)

theorem dedupLoopAux_holder : ∀ (l : List Link) (seen : List (String × Link))
    (out : List Link) (fin : List (String × Link)),
    dedupLoopAux seen l = Except.ok (out, fin) →
    ∀ x ∈ out, ∃ p, p ∈ fin ∧ p.1 = x.timestamp ∧ p.2.url = x.url := by
  intro l
  induction l with
  | nil =>
    intro seen out fin h
    simp only [dedupLoopAux, Except.ok.injEq, Prod.mk.injEq] at h
    rw [← h.1]
    intro x hx
    exact absurd hx (List.not_mem_nil x)
  | cons link rest ih =>
    intro seen out fin h
    simp only [dedupLoopAux] at h
    split at h
    · rename_i holder hfound
      split at h
      · rename_i hurl
        split at h
        · rename_i out' fin' heq
          simp only [Except.ok.injEq, Prod.mk.injEq] at h
          obtain ⟨h1, h2⟩ := h
          subst h1
          subst h2
          intro x hx
          rcases List.mem_cons.mp hx with rfl | hx
          · obtain ⟨p, hp, hp1, hp2⟩ := dictFind_eq_some hfound
            refine ⟨p, dedupLoopAux_mono rest seen out' fin' heq p hp, ?_, ?_⟩
            · rw [hp1]
            · rw [hp2]
              exact (beq_iff_eq.mp hurl).symm
          · exact ih seen out' fin' heq x hx
        · exact absurd h (by simp)
      · split at h
        · rename_i newTs heq2
          split at h
          · rename_i out' fin' heq
            simp only [Except.ok.injEq, Prod.mk.injEq] at h
            obtain ⟨h1, h2⟩ := h
            subst h1
            subst h2
            intro x hx
            rcases List.mem_cons.mp hx with rfl | hx
            · exact ⟨(newTs, setTs link newTs),
                dedupLoopAux_mono rest _ out' fin' heq _ (List.mem_cons_self _ _), rfl, rfl⟩
            · exact ih _ out' fin' heq x hx
          · exact absurd h (by simp)
        · exact absurd h (by simp)
    · split at h
      · rename_i out' fin' heq
        simp only [Except.ok.injEq, Prod.mk.injEq] at h
        obtain ⟨h1, h2⟩ := h
        subst h1
        subst h2
        intro x hx
        rcases List.mem_cons.mp hx with rfl | hx
        · exact ⟨(x.timestamp, x),
            dedupLoopAux_mono rest _ out' fin' heq _ (List.mem_cons_self _ _), rfl, rfl⟩
        · exact ih _ out' fin' heq x hx
      · exact absurd h (by simp)

theorem keys_eq_of_mem {fin : List (String × Link)} {p q : String × Link}
    (hnd : (fin.map Prod.fst).Nodup) (hp : p ∈ fin) (hq : q ∈ fin) (h : p.1 = q.1) :
    p = q :=
  List.inj_on_of_nodup_map hnd hp hq h

theorem uniquefied_frame {l out : List Link} (h : uniquefied_links l = Except.ok out) :
    out.map stripTs = (pySortDesc l).map stripTs := by
  unfold uniquefied_links at h
  split at h
  · rename_i out' fin heq
    simp only [Except.ok.injEq] at h
    rw [← h]
    exact dedupLoopAux_frame (pySortDesc l) [] out' fin heq
  · exact absurd h (by simp)

theorem uniquefied_sameTs_sameUrl {l out : List Link} (h : uniquefied_links l = Except.ok out) :
    out.Pairwise (fun a b => a.timestamp = b.timestamp → a.url = b.url) := by
  unfold uniquefied_links at h
  split at h
  · rename_i out' fin heq
    simp only [Except.ok.injEq] at h
    rw [← h]
    have hnodup := dedupLoopAux_keys_nodup (pySortDesc l) [] out' fin (by simp) heq
    have hhold := dedupLoopAux_holder (pySortDesc l) [] out' fin heq
    apply List.pairwise_of_forall_mem_list
    intro a ha b hb hts
    obtain ⟨p, hpfin, hp1, hp2⟩ := hhold a ha
    obtain ⟨q, hqfin, hq1, hq2⟩ := hhold b hb
    have hpq : p = q := keys_eq_of_mem hnodup hpfin hqfin (by rw [hp1, hq1, hts])
    rw [← hp2, ← hq2, hpq]
  · exact absurd h (by simp)

theorem uniquefied_urls {l out : List Link} (h : uniquefied_links l = Except.ok out) :
    out.map (fun x => x.url) = (pySortDesc l).map (fun x => x.url) := by
  have hf := uniquefied_frame h
  have h1 := congrArg (List.map Prod.fst) hf
  rw [List.map_map, List.map_map] at h1
  exact h1

/-! ### Remaining helper lemmas -/
theorem pyEq_list_str (v : List PyVal) (e : String) :
    pyEq (PyVal.list v) (PyVal.str e) = false := by
  cases v <;> simp [pyEq]

theorem pySplit_two_contains {ts base sfx : String}
    (h : pySplit ts '.' = [base, sfx]) : ts.data.contains '.' = true := by
  unfold pySplit at h
  cases hs : splitChars '.' ts.data with
  | nil => exact absurd hs (splitChars_ne_nil _ _)
  | cons p ps =>
    cases ps with
    | nil => rw [hs] at h; simp at h
    | cons q ps2 => exact splitChars_multi_contains hs

/-! ### The claims -/
/-- C10: the pipeline `valid_links` then `uniquefied_links` maps the empty
input to the empty output and raises nothing; likewise when the scheme
filter removes every link.  The empty list itself is the caller-visible
signal. -/
theorem c10_empty_result :
    normalizePipeline [] = Except.ok [] ∧
    ∀ l : List Link, (∀ x ∈ l, schemeOk x = false) → normalizePipeline l = Except.ok [] := by
  constructor
  · rfl
  · intro l hall
    unfold normalizePipeline valid_links
    have hnil : l.filter schemeOk = [] := by
      rw [List.filter_eq_nil_iff]
      intro a ha
      simp [hall a ha]
    rw [hnil]
    rfl

/-- C10 witness: the pipeline on the singleton `chrome://settings` input,
whose only link the filter removes, returns the empty list. -/
theorem c10_witness :
    (∀ x ∈ [chromeLink], schemeOk x = false) ∧
    normalizePipeline [chromeLink] = Except.ok [] :=
  ⟨by decide, c10_empty_result.2 [chromeLink] (by decide)⟩

/-- C8: `get_link_type` never returns `'image'` — the image branch compares
the list produced by `rsplit` with plain strings, which Python's `==` never
equates — so the result is `'PDF'`, `'wiki'`, `'youtube'` or `None`. -/
theorem c8_never_image (link : Link) :
    get_link_type link ≠ some "image" ∧
    (get_link_type link = some "PDF" ∨ get_link_type link = some "wiki" ∨
      get_link_type link = some "youtube" ∨ get_link_type link = none) := by
  have himg : (imageExts.any fun e =>
      pyEq (PyVal.list ((rsplitOnce '.' link.base_url).map PyVal.str)) (PyVal.str e)) = false := by
    rw [List.any_eq_false]
    intro e he
    rw [pyEq_list_str]
    simp
  by_cases h1 : pyEndsWith link.base_url ".pdf" = true <;>
    by_cases h2 : pyInStr "wikipedia.org" link.domain = true <;>
      by_cases h3 : pyInStr "youtube.com" link.domain = true <;>
        simp [get_link_type, himg, h1, h2, h3]

/-- C5 counterexample: for `used = {"1000.5"}` and colliding candidate
`"1000.5"`, the code returns `"1000.6"` although `"1000.1"` — the
smallest-positive-nonce candidate — is unused: the search starts at the
parsed nonce, not at 1, so the claim's "least positive integer" fails. -/
theorem c5_counterexample :
    next_uniq_timestamp ["1000.5"] "1000.5" = Except.ok "1000.6" ∧
    mkCand "1000" 1 = "1000.1" ∧ ¬ "1000.1" ∈ (["1000.5"] : List String) ∧
    mkCand "1000" 6 = "1000.6" ∧ (6 : Nat) ≠ 1 :=
  ⟨rfl, rfl, by decide, rfl, by decide⟩

/-- C5 (amended): for a colliding candidate, `next_uniq_timestamp`
terminates and returns `"<base>.<n>"` where n is the least nonce greater
than or equal to the STARTING nonce — 1 when the candidate has no dot (so
there n is the least positive integer with an unused candidate, as the
claim said), and the parsed existing nonce when it has one dot with a
numeric suffix (so smaller free nonces may be skipped). -/
theorem c5_least_from_start (used : List String) (ts : String) (hmem : ts ∈ used) :
    (ts.data.contains '.' = false →
      ∃ n, next_uniq_timestamp used ts = Except.ok (mkCand ts n) ∧ 1 ≤ n ∧
        ¬ mkCand ts n ∈ used ∧ ∀ j, 1 ≤ j → j < n → mkCand ts j ∈ used) ∧
    (∀ base sfx n0, pySplit ts '.' = [base, sfx] → pyParseNat sfx = some n0 →
      ∃ n, next_uniq_timestamp used ts = Except.ok (mkCand base n) ∧ n0 ≤ n ∧
        ¬ mkCand base n ∈ used ∧ ∀ j, n0 ≤ j → j < n → mkCand base j ∈ used) := by
  constructor
  · intro hdot
    obtain ⟨m, hm, hle, hfree, hmin⟩ := searchFrom_full used ts 1
    refine ⟨m, ?_, hle, hfree, hmin⟩
    unfold next_uniq_timestamp
    rw [if_pos (List.elem_iff.mpr hmem), if_neg (by rw [hdot]; exact Bool.false_ne_true), hm]
  · intro base sfx n0 hsplit hparse
    obtain ⟨m, hm, hle, hfree, hmin⟩ := searchFrom_full used base n0
    refine ⟨m, ?_, hle, hfree, hmin⟩
    unfold next_uniq_timestamp
    rw [if_pos (List.elem_iff.mpr hmem), if_pos (pySplit_two_contains hsplit)]
    simp only [hsplit, hparse]
    rw [hm]

/-- C5 witness: with `used = {"1000", "1000.1"}` and candidate `"1000"`, the
theorem's dotless case applies and yields the least free positive nonce. -/
theorem c5_witness :
    ("1000" : String) ∈ ["1000", "1000.1"] ∧
    (∃ n, next_uniq_timestamp ["1000", "1000.1"] "1000" = Except.ok (mkCand "1000" n) ∧
      1 ≤ n ∧ ¬ mkCand "1000" n ∈ ["1000", "1000.1"] ∧
      ∀ j, 1 ≤ j → j < n → mkCand "1000" j ∈ ["1000", "1000.1"]) :=
  ⟨by decide, (c5_least_from_start ["1000", "1000.1"] "1000" (by decide)).1 (by decide)⟩

/-- C6 counterexample: a colliding timestamp with two dots does NOT complete:
`timestamp.split('.')` splits at every dot, the two-variable tuple unpacking
gets three parts and raises `ValueError`. -/
theorem c6_counterexample :
    next_uniq_timestamp ["1.2.3"] "1.2.3" =
      Except.error "ValueError: too many values to unpack" ∧
    pySplit "1.2.3" '.' = ["1", "2", "3"] :=
  ⟨rfl, rfl⟩

/-- C6 (amended): only for a colliding timestamp with EXACTLY one dot and a
numeric suffix does `next_uniq_timestamp` complete without error, splitting
at that dot and returning an unused candidate of the form `"<base>.<n>"`;
with two or more dots the split is not first-dot-only and the tuple
unpacking raises `ValueError`. -/
theorem c6_one_dot_ok (used : List String) (ts base sfx : String) (n0 : Nat)
    (hmem : ts ∈ used) (hsplit : pySplit ts '.' = [base, sfx])
    (hparse : pyParseNat sfx = some n0) :
    ∃ n, next_uniq_timestamp used ts = Except.ok (mkCand base n) ∧
      ¬ mkCand base n ∈ used := by
  obtain ⟨m, hm, hle, hfree, hmin⟩ := searchFrom_full used base n0
  refine ⟨m, ?_, hfree⟩
  unfold next_uniq_timestamp
  rw [if_pos (List.elem_iff.mpr hmem), if_pos (pySplit_two_contains hsplit)]
  simp only [hsplit, hparse]
  rw [hm]

/-- C6 witness: the one-dot colliding candidate `"1000.2"` completes and
yields an unused `"1000.<n>"`. -/
theorem c6_witness :
    ("1000.2" : String) ∈ ["1000.2"] ∧ pySplit "1000.2" '.' = ["1000", "2"] ∧
    pyParseNat "2" = some 2 ∧
    (∃ n, next_uniq_timestamp ["1000.2"] "1000.2" = Except.ok (mkCand "1000" n) ∧
      ¬ mkCand "1000" n ∈ ["1000.2"]) :=
  ⟨by decide, rfl, rfl, c6_one_dot_ok ["1000.2"] "1000.2" "1000" "2" 2 (by decide) rfl rfl⟩

/-- C1 counterexample: the loop's `continue` for a true duplicate does not
remove the link from the returned list, so two identical valid links both
survive normalization carrying the SAME timestamp — output timestamps are
not unique. -/
theorem c1_counterexample :
    normalizePipeline [dupLink, dupLink] = Except.ok [dupLink, dupLink] ∧
    ¬ List.Pairwise (fun a b : Link => a.timestamp ≠ b.timestamp) [dupLink, dupLink] :=
  ⟨rfl, by decide⟩

/-- C1 (amended): after the pipeline `valid_links` then `uniquefied_links`,
any two output links sharing a timestamp have the same url; timestamps are
unique among links with distinct urls (exact duplicates may share one). -/
theorem c1_unique_ts_up_to_url (l out : List Link)
    (h : normalizePipeline l = Except.ok out) :
    out.Pairwise (fun a b => a.timestamp = b.timestamp → a.url = b.url) :=
  uniquefied_sameTs_sameUrl h

/-- C1 witness: the singleton pipeline run satisfies the amended pairwise
property. -/
theorem c1_witness :
    normalizePipeline [dupLink] = Except.ok [dupLink] ∧
    List.Pairwise (fun a b : Link => a.timestamp = b.timestamp → a.url = b.url) [dupLink] :=
  ⟨rfl, c1_unique_ts_up_to_url [dupLink] [dupLink] rfl⟩

/-- C2 counterexample: two identical raw links (same timestamp AND same url)
yield TWO output links for that pair, not one — the `continue` skips
claiming a slot but drops nothing from the returned list. -/
theorem c2_counterexample :
    uniquefied_links [dupLink2, dupLink2] = Except.ok [dupLink2, dupLink2] ∧
    ([dupLink2, dupLink2].countP
      (fun l => l.timestamp == dupLink2.timestamp && l.url == dupLink2.url)) = 2 :=
  ⟨rfl, by decide⟩

/-- C2 (amended): for a pair of raw links with identical timestamp and
identical url, BOTH occurrences are returned (in stable descending order),
and the second occurrence is indeed not renumbered — its timestamp field is
unchanged — but it is not dropped. -/
theorem c2_duplicate_kept_unrenumbered (a b : Link) (hts : a.timestamp = b.timestamp)
    (hurl : a.url = b.url) : uniquefied_links [a, b] = Except.ok [b, a] := by
  have hkey : keyLe a b = true := by
    simp [keyLe, hts, hurl, strLt_irrefl, strLe_refl]
  have hsort : pySortDesc [a, b] = [b, a] := by
    simp [pySortDesc, isort, insertLink, hkey]
  unfold uniquefied_links
  rw [hsort]
  have hbeq : (b.timestamp == a.timestamp) = true := by simp [hts]
  have hueq : (a.url == b.url) = true := by simp [hurl]
  simp [dedupLoopAux, dictFind, List.find?, hbeq, hueq, hts]

/-- C2 witness: an identical pair is returned whole and unchanged. -/
theorem c2_witness :
    uniquefied_links [dupLink2, dupLink2] = Except.ok [dupLink2, dupLink2] :=
  c2_duplicate_kept_unrenumbered dupLink2 dupLink2 rfl rfl

/-- C9: every link in the output of `uniquefied_links` agrees with its
corresponding input link on every field except `timestamp` — the pass only
ever rewrites the timestamp field (here: the multiset of
all-fields-but-timestamp projections is preserved exactly). -/
theorem c9_only_timestamp_mutated (l out : List Link)
    (h : uniquefied_links l = Except.ok out) :
    (out.map stripTs).Perm (l.map stripTs) := by
  rw [uniquefied_frame h]
  exact (pySortDesc_perm l).map stripTs

/-- C9 witness: the frame property at a concrete run. -/
theorem c9_witness :
    uniquefied_links [dupLink] = Except.ok [dupLink] ∧
    (([dupLink].map stripTs).Perm ([dupLink].map stripTs)) :=
  ⟨rfl, c9_only_timestamp_mutated [dupLink] [dupLink] rfl⟩

/-- C4 counterexample: two valid links with timestamp "1000" and distinct
urls produce output timestamps "1000" then "1000.1"; under the final
(post-renumbering) timestamps this is ASCENDING, since `"1000" < "1000.1"`
lexicographically — the output is not descending in its final `(timestamp,
url)` keys. -/
theorem c4_counterexample :
    uniquefied_links [colA, colB] = Except.ok [colB, setTs colA "1000.1"] ∧
    ¬ List.Pairwise (fun u v : Link => keyLe v u = true) [colB, setTs colA "1000.1"] :=
  ⟨rfl, by decide⟩

/-- C4 (amended): the output order is the descending `(timestamp, url)`
string-lexicographic order of the links AS SORTED — i.e. with the
timestamps they carried before renumbering: the sorted sequence is pairwise
descending, and the output is that sequence with only timestamp fields
rewritten. -/
theorem c4_sorted_by_presort_keys (l out : List Link)
    (h : uniquefied_links l = Except.ok out) :
    (pySortDesc l).Pairwise (fun a b => keyLe b a = true) ∧
    out.map stripTs = (pySortDesc l).map stripTs :=
  ⟨pySortDesc_pairwise l, uniquefied_frame h⟩

/-- C4 witness: the amended ordering property at a concrete run. -/
theorem c4_witness :
    uniquefied_links [colA] = Except.ok [colA] ∧
    ((pySortDesc [colA]).Pairwise (fun a b => keyLe b a = true) ∧
      [colA].map stripTs = (pySortDesc [colA]).map stripTs) :=
  ⟨rfl, c4_sorted_by_presort_keys [colA] [colA] rfl⟩

/-- C7: links whose url starts with neither "http" nor "ftp" never reach the
output of the pipeline (every output url passes the scheme test), and they
never claim a timestamp slot: filtering precedes sorting and deduplication,
so a valid link with the same original timestamp keeps it un-renumbered. -/
theorem c7_scheme_rejection :
    (∀ (l out : List Link), normalizePipeline l = Except.ok out →
      ∀ x ∈ out, schemeOk x = true) ∧
    (∀ c v : Link, schemeOk c = false → schemeOk v = true → c.timestamp = v.timestamp →
      normalizePipeline [c, v] = Except.ok [v]) := by
  constructor
  · intro l out h x hx
    have h' : uniquefied_links (valid_links l) = Except.ok out := h
    have hurls := uniquefied_urls h'
    have hx' : x.url ∈ out.map (fun y => y.url) := List.mem_map_of_mem _ hx
    rw [hurls] at hx'
    rw [List.mem_map] at hx'
    obtain ⟨y, hy, hyx⟩ := hx'
    have hy' : y ∈ valid_links l := (pySortDesc_perm (valid_links l)).mem_iff.mp hy
    have hok := List.of_mem_filter hy'
    unfold schemeOk at hok ⊢
    rw [← hyx]
    exact hok
  · intro c v hc hv hts
    have hfilter : valid_links [c, v] = [v] := by
      simp [valid_links, List.filter, hc, hv]
    unfold normalizePipeline
    rw [hfilter]
    simp [uniquefied_links, pySortDesc, isort, insertLink, dedupLoopAux, dictFind, List.find?]

/-- C7 witness: `chrome://settings` is dropped and the valid link with the
same original timestamp "1000" keeps it unchanged. -/
theorem c7_witness :
    (normalizePipeline [chromeLink, colA] = Except.ok [colA] ∧ schemeOk colA = true) ∧
    (schemeOk chromeLink = false ∧ schemeOk colA = true ∧
      chromeLink.timestamp = colA.timestamp ∧
      normalizePipeline [chromeLink, colA] = Except.ok [colA]) :=
  ⟨⟨rfl, c7_scheme_rejection.1 [chromeLink, colA] [colA] rfl colA (by decide)⟩,
    by decide, by decide, rfl, c7_scheme_rejection.2 chromeLink colA (by decide) (by decide) rfl⟩

theorem urlLe_of_keyLe_eqTs {u v : Link} (h : keyLe u v = true)
    (heq : u.timestamp = v.timestamp) : strLe u.url v.url = true := by
  rw [keyLe, heq, strLt_irrefl] at h
  simpa using h

/-- C3: k links (k = 2 or 3) sharing the undotted timestamp "1000" with
pairwise distinct urls are all retained; the walk order is the descending
sort, the link with the lexicographically largest url is processed first
and keeps "1000", the others get "1000.1" (and "1000.2") in order. -/
theorem c3_collision_renumbering :
    (∀ a b : Link, a.timestamp = "1000" → b.timestamp = "1000" → a.url ≠ b.url →
      ∃ x y, pySortDesc [a, b] = [x, y] ∧ List.Perm [x, y] [a, b] ∧
        uniquefied_links [a, b] = Except.ok [x, setTs y "1000.1"] ∧
        strLt y.url x.url = true ∧ x.timestamp = "1000") ∧
    (∀ a b c : Link, a.timestamp = "1000" → b.timestamp = "1000" →
      c.timestamp = "1000" → a.url ≠ b.url → a.url ≠ c.url → b.url ≠ c.url →
      ∃ x y z, pySortDesc [a, b, c] = [x, y, z] ∧ List.Perm [x, y, z] [a, b, c] ∧
        uniquefied_links [a, b, c] = Except.ok [x, setTs y "1000.1", setTs z "1000.2"] ∧
        strLt y.url x.url = true ∧ strLt z.url y.url = true ∧ x.timestamp = "1000") := by
  constructor
  · intro a b ha hb hab
    have hlen : (pySortDesc [a, b]).length = 2 := (pySortDesc_perm [a, b]).length_eq
    obtain ⟨x, y, hxy2⟩ : ∃ x y, pySortDesc [a, b] = [x, y] := by
      cases hs : pySortDesc [a, b] with
      | nil => rw [hs] at hlen; simp at hlen
      | cons x rest =>
        cases rest with
        | nil => rw [hs] at hlen; simp at hlen
        | cons y rest2 =>
          cases rest2 with
          | nil => exact ⟨x, y, rfl⟩
          | cons w rest3 => rw [hs] at hlen; simp at hlen
    have hperm : List.Perm [x, y] [a, b] := by rw [← hxy2]; exact pySortDesc_perm _
    have htsall : ∀ w ∈ [a, b], w.timestamp = "1000" := by
      intro w hw
      simp only [List.mem_cons, List.not_mem_nil, or_false] at hw
      rcases hw with rfl | rfl
      · exact ha
      · exact hb
    have htsx : x.timestamp = "1000" := htsall x (hperm.subset (by simp))
    have htsy : y.timestamp = "1000" := htsall y (hperm.subset (by simp))
    have hpw := pySortDesc_pairwise [a, b]
    rw [hxy2] at hpw
    have hyx : keyLe y x = true := (List.pairwise_cons.mp hpw).1 y (by simp)
    have hnd : ([a, b].map (fun w => w.url)).Nodup := by
      simp only [List.map_cons, List.map_nil, List.nodup_cons, List.mem_cons,
        List.not_mem_nil, or_false, List.nodup_nil, and_true]
      exact ⟨hab, not_false⟩
    have hnd2 : ([x, y].map (fun w => w.url)).Nodup := ((hperm.map _).nodup_iff).mpr hnd
    simp only [List.map_cons, List.map_nil, List.nodup_cons, List.mem_cons,
      List.not_mem_nil, or_false, List.nodup_nil, and_true, not_or] at hnd2
    obtain ⟨hxy, -⟩ := hnd2
    have hyxlt : strLt y.url x.url = true :=
      strLt_of_strLe_of_ne (urlLe_of_keyLe_eqTs hyx (htsy.trans htsx.symm))
        (fun h => hxy h.symm)
    have hyxb : (y.url == x.url) = false := by
      rw [beq_eq_false_iff_ne]
      exact fun h => hxy h.symm
    have hwalk : uniquefied_links [a, b] = Except.ok [x, setTs y "1000.1"] := by
      unfold uniquefied_links
      rw [hxy2]
      have h1 : next_uniq_timestamp ["1000"] "1000" = Except.ok "1000.1" := rfl
      simp [dedupLoopAux, dictFind, List.find?, htsx, htsy, hyxb, h1]
    exact ⟨x, y, hxy2, hperm, hwalk, hyxlt, htsx⟩
  · intro a b c ha hb hc hab hac hbc
    have hlen : (pySortDesc [a, b, c]).length = 3 := (pySortDesc_perm [a, b, c]).length_eq
    obtain ⟨x, y, z, hxyz⟩ : ∃ x y z, pySortDesc [a, b, c] = [x, y, z] := by
      cases hs : pySortDesc [a, b, c] with
      | nil => rw [hs] at hlen; simp at hlen
      | cons x rest =>
        cases rest with
        | nil => rw [hs] at hlen; simp at hlen
        | cons y rest2 =>
          cases rest2 with
          | nil => rw [hs] at hlen; simp at hlen
          | cons z rest3 =>
            cases rest3 with
            | nil => exact ⟨x, y, z, rfl⟩
            | cons w rest4 => rw [hs] at hlen; simp at hlen
    have hperm : List.Perm [x, y, z] [a, b, c] := by rw [← hxyz]; exact pySortDesc_perm _
    have htsall : ∀ w ∈ [a, b, c], w.timestamp = "1000" := by
      intro w hw
      simp only [List.mem_cons, List.not_mem_nil, or_false] at hw
      rcases hw with rfl | rfl | rfl
      · exact ha
      · exact hb
      · exact hc
    have htsx : x.timestamp = "1000" := htsall x (hperm.subset (by simp))
    have htsy : y.timestamp = "1000" := htsall y (hperm.subset (by simp))
    have htsz : z.timestamp = "1000" := htsall z (hperm.subset (by simp))
    have hpw := pySortDesc_pairwise [a, b, c]
    rw [hxyz] at hpw
    have hyx : keyLe y x = true := (List.pairwise_cons.mp hpw).1 y (by simp)
    have hpw2 := (List.pairwise_cons.mp hpw).2
    have hzy : keyLe z y = true := (List.pairwise_cons.mp hpw2).1 z (by simp)
    have hnd : ([a, b, c].map (fun w => w.url)).Nodup := by
      simp only [List.map_cons, List.map_nil, List.nodup_cons, List.mem_cons,
        List.not_mem_nil, or_false, List.nodup_nil, and_true]
      constructor
      · intro hcon
        rcases hcon with h1 | h1
        · exact hab h1
        · exact hac h1
      · exact ⟨hbc, not_false⟩
    have hnd2 : ([x, y, z].map (fun w => w.url)).Nodup := ((hperm.map _).nodup_iff).mpr hnd
    simp only [List.map_cons, List.map_nil, List.nodup_cons, List.mem_cons,
      List.not_mem_nil, or_false, List.nodup_nil, and_true, not_or] at hnd2
    obtain ⟨⟨hxy, hxz⟩, hyz, -⟩ := hnd2
    have hyxlt : strLt y.url x.url = true :=
      strLt_of_strLe_of_ne (urlLe_of_keyLe_eqTs hyx (htsy.trans htsx.symm))
        (fun h => hxy h.symm)
    have hzylt : strLt z.url y.url = true :=
      strLt_of_strLe_of_ne (urlLe_of_keyLe_eqTs hzy (htsz.trans htsy.symm))
        (fun h => hyz h.symm)
    have hyxb : (y.url == x.url) = false := by
      rw [beq_eq_false_iff_ne]
      exact fun h => hxy h.symm
    have hzxb : (z.url == x.url) = false := by
      rw [beq_eq_false_iff_ne]
      exact fun h => hxz h.symm
    have hwalk : uniquefied_links [a, b, c] =
        Except.ok [x, setTs y "1000.1", setTs z "1000.2"] := by
      unfold uniquefied_links
      rw [hxyz]
      have h1 : next_uniq_timestamp ["1000"] "1000" = Except.ok "1000.1" := rfl
      have h2 : next_uniq_timestamp ["1000.1", "1000"] "1000" = Except.ok "1000.2" := rfl
      simp [dedupLoopAux, dictFind, List.find?, htsx, htsy, htsz, hyxb, hzxb, h1, h2]
    exact ⟨x, y, z, hxyz, hperm, hwalk, hyxlt, hzylt, htsx⟩

/-- C3 witness: the theorem applied to the concrete collision triples and
pairs built from `colA`, `colB`, `colC`. -/
theorem c3_witness :
    (∃ x y, pySortDesc [colA, colB] = [x, y] ∧ List.Perm [x, y] [colA, colB] ∧
      uniquefied_links [colA, colB] = Except.ok [x, setTs y "1000.1"] ∧
      strLt y.url x.url = true ∧ x.timestamp = "1000") ∧
    (∃ x y z, pySortDesc [colA, colB, colC] = [x, y, z] ∧
      List.Perm [x, y, z] [colA, colB, colC] ∧
      uniquefied_links [colA, colB, colC] =
        Except.ok [x, setTs y "1000.1", setTs z "1000.2"] ∧
      strLt y.url x.url = true ∧ strLt z.url y.url = true ∧ x.timestamp = "1000") :=
  ⟨c3_collision_renumbering.1 colA colB rfl rfl (by decide),
   c3_collision_renumbering.2 colA colB colC rfl rfl rfl (by decide) (by decide) (by decide)⟩
